import Mathlib

/-!
# Verification of the GoSlice polygon layer-processing core

This file is a shallow embedding of the clip package of the GoSlice slicer
(file `cmd/goslice/main.go` of the repository snapshot: the `clip` package
with `GenerateLayerParts`, `Inset`, `InsetLayer`, `Fill`/`getLinearFill`,
and the `modifier` package with the perimeter modifier's `Modify`).

Conventions of the embedding:
* `data.Micrometer` (a signed 64-bit integer) is embedded as `Int`; the
  inputs handled here are bounded by the printer build volume, far from
  64-bit overflow, so plain `Int` arithmetic is faithful.
* The external polygon Boolean/offset engine (github.com/ctessum/go.clipper)
  is out of the repository; per the specification only its contract matters.
  Where a claim depends on engine behaviour, the engine either stays an
  explicit function parameter, or is modelled from the spec (such
  definitions carry a doc comment starting with `Modelled from the spec:`).
* Go loops that mutate state become structural recursions threading the
  state; Go panics (out-of-range indexing) and engine failures become
  `Option`.
-/

set_option linter.unusedVariables false

namespace GoSlice

/-- A point in micrometer coordinates (`data.MicroPoint`). -/
structure MicroPoint where
  x : Int
  y : Int
deriving DecidableEq, Repr

/-- Embeds `data.Path`: an ordered sequence of points. -/
abbrev Path := List MicroPoint

/-- Embeds `data.Paths`: an ordered sequence of paths. -/
abbrev Paths := List Path

/-- Embeds `MicroPoint.Sub` from the data package: componentwise difference. -/
def MicroPoint.sub (a b : MicroPoint) : MicroPoint := ⟨a.x - b.x, a.y - b.y⟩

/-- Modelled from the spec: `data.MicroPoint.ShorterThanOrEqual` (the data
package is not part of the given sources).  Spec §3: "a predicate
`shorterThanOrEqual(d)` on the Euclidean length of the vector (computed
exactly via integer squared comparison)". -/
def MicroPoint.shorterThanOrEqual (p : MicroPoint) (d : Int) : Bool :=
  p.x * p.x + p.y * p.y ≤ d * d

/-- The vertex de-duplication of the point loop inside
`GenerateLayerParts`: vertices whose distance to the previously *kept*
vertex is `ShorterThanOrEqual 100` are skipped, otherwise the vertex is
kept and becomes the new comparison point (`prev = j`). -/
def dedupGo (prev : MicroPoint) : List MicroPoint → List MicroPoint
  | [] => []
  | p :: ps =>
    if (p.sub prev).shorterThanOrEqual 100 then dedupGo prev ps
    else p :: dedupGo p ps

/-- One polygon of the ingest loop of `GenerateLayerParts`: the first
vertex is always appended (`j == 0` case), the rest run through the
nearness filter. -/
def dedupLoop : Path → Path
  | [] => []
  | p0 :: rest => p0 :: dedupGo p0 rest

/-- The whole ingest stage of `GenerateLayerParts`: every input loop is
de-duplicated; the resulting list `polyList` is handed to the Boolean
engine. -/
def ingest (l : Paths) : Paths := l.map dedupLoop

/-- Embeds `data.LayerPart`: one outer contour plus its holes
(`data.NewUnknownLayerPart(outline, holes)`). -/
structure LayerPart where
  outline : Path
  holes : Paths
deriving DecidableEq, Repr

/-! ## Claim C2: de-duplication thresholds during Partition ingest -/

/-- Claim C2, counterexample. The claim says a consecutive vertex at distance
exactly 100 µm from the previous kept vertex is preserved.  The source drops
it: the filter uses `ShorterThanOrEqual(100)`, which is true at distance
exactly 100, so the vertex `(100, 0)` is removed from the ingested loop. -/
theorem claim2_counterexample :
    ingest [[⟨0, 0⟩, ⟨100, 0⟩, ⟨5000, 0⟩]] = [[⟨0, 0⟩, ⟨5000, 0⟩]] ∧
    (⟨100, 0⟩ : MicroPoint) ∉ (ingest [[⟨0, 0⟩, ⟨100, 0⟩, ⟨5000, 0⟩]]).flatten := by
  decide

/-- Claim C2, amended. During Partition ingest of each closed loop, a
consecutive vertex is dropped exactly when its distance to the previous
kept vertex is ≤ 100 µm: a vertex at exactly 100 µm is dropped (as is one
at 99 µm) and a vertex at 101 µm is preserved.  The first vertex of every
loop is always kept, and the nearness test is always taken against the
previously kept vertex, not the previous raw vertex (so in the loop
`(0,0), (60,0), (120,0)` the last vertex survives although it is only
60 µm from its raw predecessor). -/
theorem claim2_amended :
    (∀ (p0 : MicroPoint) (rest : List MicroPoint),
      dedupLoop (p0 :: rest) = p0 :: dedupGo p0 rest) ∧
    (∀ (prev p : MicroPoint) (ps : List MicroPoint),
      dedupGo prev (p :: ps) =
        if (p.sub prev).shorterThanOrEqual 100 then dedupGo prev ps
        else p :: dedupGo p ps) ∧
    ingest [[⟨0, 0⟩, ⟨100, 0⟩, ⟨5000, 0⟩]] = [[⟨0, 0⟩, ⟨5000, 0⟩]] ∧
    ingest [[⟨0, 0⟩, ⟨99, 0⟩, ⟨5000, 0⟩]] = [[⟨0, 0⟩, ⟨5000, 0⟩]] ∧
    ingest [[⟨0, 0⟩, ⟨101, 0⟩, ⟨5000, 0⟩]] = [[⟨0, 0⟩, ⟨101, 0⟩, ⟨5000, 0⟩]] ∧
    ingest [[⟨0, 0⟩, ⟨60, 0⟩, ⟨120, 0⟩]] = [[⟨0, 0⟩, ⟨120, 0⟩]] := by
  refine ⟨fun p0 rest => rfl, fun prev p ps => rfl, ?_, ?_, ?_, ?_⟩ <;> decide

/-! ## The polygon tree and the Partition traversal -/

/-- A node of the clipper `PolyTree`: a contour and its child nodes. -/
inductive PolyNode where
  | node (contour : Path) (childs : List PolyNode)

/-- The contour of a `PolyNode` (`PolyNode.Contour()`). -/
def PolyNode.contour : PolyNode → Path
  | .node c _ => c

/-- The children of a `PolyNode` (`PolyNode.Childs()`). -/
def PolyNode.childs : PolyNode → List PolyNode
  | .node _ cs => cs

mutual

/-- Number of nodes of a polygon tree (termination measure of the
round-based traversal of `GenerateLayerParts`). -/
def PolyNode.size : PolyNode → Nat
  | .node _ cs => 1 + PolyNode.sizeList cs

/-- Total number of nodes of a list of polygon trees. -/
def PolyNode.sizeList : List PolyNode → Nat
  | [] => 0
  | c :: cs => c.size + PolyNode.sizeList cs

end

theorem PolyNode.sizeList_append (a b : List PolyNode) :
    PolyNode.sizeList (a ++ b) = PolyNode.sizeList a + PolyNode.sizeList b := by
  induction a with
  | nil => simp [PolyNode.sizeList]
  | cons c cs ih => simp [PolyNode.sizeList, ih]; omega

/-- The layer parts emitted for one round of the traversal: every node of
the round is paired with exactly its direct children as holes
(`data.NewUnknownLayerPart(p.Contour(), holes)`). -/
def roundParts (round : List PolyNode) : List LayerPart :=
  round.map (fun p => ⟨p.contour, p.childs.map PolyNode.contour⟩)

/-- The nodes pushed onto `polysForNextRound`: for every node of the
round, for every child, all of the child's children (the grandchildren). -/
def nextRound (round : List PolyNode) : List PolyNode :=
  round.flatMap (fun p => p.childs.flatMap PolyNode.childs)

theorem sizeList_childs_flatMap_le (cs : List PolyNode) :
    PolyNode.sizeList (cs.flatMap PolyNode.childs) ≤ PolyNode.sizeList cs := by
  induction cs with
  | nil => simp [PolyNode.sizeList]
  | cons c rest ih =>
    have hc : PolyNode.sizeList c.childs + 1 ≤ c.size := by
      cases c with
      | node contour cs2 => simp [PolyNode.size, PolyNode.childs]; omega
    simp only [List.flatMap_cons, PolyNode.sizeList_append, PolyNode.sizeList]
    omega

theorem sizeList_nextRound_add_length_le (round : List PolyNode) :
    PolyNode.sizeList (nextRound round) + round.length ≤ PolyNode.sizeList round := by
  induction round with
  | nil => simp [nextRound, PolyNode.sizeList]
  | cons p rest ih =>
    have hgc : PolyNode.sizeList (p.childs.flatMap PolyNode.childs) + 1 ≤ p.size := by
      cases p with
      | node contour cs =>
        have := sizeList_childs_flatMap_le cs
        simp only [PolyNode.childs, PolyNode.size]
        omega
    simp only [nextRound, List.flatMap_cons, PolyNode.sizeList_append, List.length_cons,
      PolyNode.sizeList] at *
    omega

theorem sizeList_nextRound_lt (round : List PolyNode) (h : round ≠ []) :
    PolyNode.sizeList (nextRound round) < PolyNode.sizeList round := by
  have h1 := sizeList_nextRound_add_length_le round
  have h2 : round.length ≠ 0 := by
    intro hlen
    exact h (List.length_eq_zero.mp hlen)
  omega

/-- The round-based traversal of the polygon tree in `GenerateLayerParts`
(the `for { ... }` loop over `polysForNextRound`): each round emits its
parts, the grandchildren of the round form the next round, until a round
is empty. -/
def partitionTraverse (round : List PolyNode) : List LayerPart :=
  match round with
  | [] => []
  | p :: rest => roundParts (p :: rest) ++ partitionTraverse (nextRound (p :: rest))
termination_by PolyNode.sizeList round
decreasing_by
  exact sizeList_nextRound_lt _ (by simp)

/-- Embeds `GenerateLayerParts`: ingest (de-duplicate) the layer's polygons, run
the Boolean engine's union (`Execute2(CtUnion, PftEvenOdd, PftEvenOdd)`,
here an explicit parameter `engine` returning `none` on failure, in which
case the function returns `nil, false`), then traverse the resulting
polygon tree round by round. -/
def generateLayerParts (engine : Paths → Option (List PolyNode)) (l : Paths) :
    Option (List LayerPart) :=
  match engine (ingest l) with
  | none => none
  | some roots => some (partitionTraverse roots)

/-! ## A spec-modelled Boolean union engine (containment nesting)

The clipper library itself is not part of the repository; the spec fixes
its contract.  The even-odd membership test and the nesting tree below are
modelled from the spec and are adequate for the pairwise non-crossing
rectilinear loops used by the concrete scenarios. -/

/-- The closed edge list of a path (each vertex to its successor, last
vertex back to the first). -/
def closedEdges (p : Path) : List (MicroPoint × MicroPoint) :=
  match p with
  | [] => []
  | q :: _ => p.zip (p.drop 1 ++ [q])

/-- Whether an edge crosses the vertical line at `x`, and at which `y`.
The half-open rule `min ≤ x < max` counts every crossing exactly once.
Crossing edges of rectilinear polygons are horizontal, so the crossing
ordinate is the edge's `y`.  (Modelled from the spec: the Boolean engine's
even-odd filling; the development only evaluates it on rectilinear loops,
where it is exact.) -/
def edgeCrossY (x : Int) (e : MicroPoint × MicroPoint) : Option Int :=
  if (e.1.x ≤ x ∧ x < e.2.x) ∨ (e.2.x ≤ x ∧ x < e.1.x) then some e.1.y else none

/-- All crossing ordinates of a region's edges with the vertical line at
`x`. -/
def crossings (region : Paths) (x : Int) : List Int :=
  (region.flatMap closedEdges).filterMap (edgeCrossY x)

/-- Modelled from the spec: even-odd membership ("even-odd fill on both
sides").  A point `(x, y)` (with exact rational ordinate `y`) is inside
when an odd number of region edges cross the vertical line at `x` below
`y`. -/
def evenOddInsideQ (region : Paths) (x : Int) (y : ℚ) : Bool :=
  (crossings region x).countP (fun (c : Int) => decide ((c : ℚ) < y)) % 2 == 1

/-- The representative vertex of a loop used for the containment tests. -/
def repPoint (p : Path) : MicroPoint := p.headD ⟨0, 0⟩

/-- Whether the representative vertex of `q` is inside the single loop
`p`. -/
def repInside (q p : Path) : Bool :=
  evenOddInsideQ [p] (repPoint q).x ((repPoint q).y : ℚ)

/-- The nesting depth of loop `p`: how many other loops of the layer
contain its representative vertex. -/
def insideCount (all : Paths) (p : Path) : Nat :=
  (all.filter (fun q => q ≠ p && repInside p q)).length

/-- The direct children of loop `p` in the nesting tree: loops inside `p`
whose depth is exactly one more. -/
def childPaths (all : Paths) (p : Path) : Paths :=
  all.filter (fun q => repInside q p && insideCount all q == insideCount all p + 1)

/-- Recursive construction of the nesting tree below loop `p`; the fuel is
bounded by the number of loops, which at least reaches the nesting
depth. -/
def buildNode (all : Paths) : Nat → Path → PolyNode
  | 0, p => .node p []
  | fuel + 1, p => .node p ((childPaths all p).map (buildNode all fuel))

/-- Modelled from the spec: the polygon-union Boolean with even-odd fill
("Result is a polygon tree where depth-0 nodes are outer contours, depth-1
nodes are their holes, depth-2 are islands inside holes, etc.").
Implemented by containment of a representative vertex, which realizes the
contract for pairwise non-crossing loops; it never signals failure. -/
def unionTree (all : Paths) : Option (List PolyNode) :=
  some ((all.filter (fun p => insideCount all p == 0)).map (buildNode all all.length))

/-! ## Claims C7 and C8: the Partition traversal and its failure mode -/

/-- The spec's nested-island input: outer square, hole inside it, island
inside the hole (scenario S4). -/
def nestedInput : Paths :=
  [[⟨0, 0⟩, ⟨10000, 0⟩, ⟨10000, 10000⟩, ⟨0, 10000⟩],
   [⟨2000, 2000⟩, ⟨8000, 2000⟩, ⟨8000, 8000⟩, ⟨2000, 8000⟩],
   [⟨4000, 4000⟩, ⟨6000, 4000⟩, ⟨6000, 6000⟩, ⟨4000, 6000⟩]]

/-- Claim C7. Partition pairs each even-depth contour with exactly its
direct children as holes and pushes every child's children into the next
round as new top-level parts; hence for the nested-island input (outer
square, hole, island inside the hole) it yields exactly 2 parts: the ring
(outer contour with the hole) and the island (with no holes). -/
theorem claim7 :
    (∀ (p : PolyNode) (rest : List PolyNode),
      partitionTraverse (p :: rest) =
        (⟨p.contour, p.childs.map PolyNode.contour⟩ :: roundParts rest) ++
          partitionTraverse (nextRound (p :: rest))) ∧
    generateLayerParts unionTree nestedInput =
      some [⟨[⟨0, 0⟩, ⟨10000, 0⟩, ⟨10000, 10000⟩, ⟨0, 10000⟩],
             [[⟨2000, 2000⟩, ⟨8000, 2000⟩, ⟨8000, 8000⟩, ⟨2000, 8000⟩]]⟩,
            ⟨[⟨4000, 4000⟩, ⟨6000, 4000⟩, ⟨6000, 6000⟩, ⟨4000, 6000⟩], []⟩] := by
  constructor
  · intro p rest
    rw [partitionTraverse]
    simp [roundParts]
  · have hu : unionTree (ingest nestedInput) =
        some [.node [⟨0, 0⟩, ⟨10000, 0⟩, ⟨10000, 10000⟩, ⟨0, 10000⟩]
                [.node [⟨2000, 2000⟩, ⟨8000, 2000⟩, ⟨8000, 8000⟩, ⟨2000, 8000⟩]
                  [.node [⟨4000, 4000⟩, ⟨6000, 4000⟩, ⟨6000, 6000⟩, ⟨4000, 6000⟩] []]]] := by
      rfl
    simp only [generateLayerParts, hu]
    rw [partitionTraverse]
    have hn1 : nextRound [.node [⟨0, 0⟩, ⟨10000, 0⟩, ⟨10000, 10000⟩, ⟨0, 10000⟩]
        [.node [⟨2000, 2000⟩, ⟨8000, 2000⟩, ⟨8000, 8000⟩, ⟨2000, 8000⟩]
          [.node [⟨4000, 4000⟩, ⟨6000, 4000⟩, ⟨6000, 6000⟩, ⟨4000, 6000⟩] []]]] =
        [.node [⟨4000, 4000⟩, ⟨6000, 4000⟩, ⟨6000, 6000⟩, ⟨4000, 6000⟩] []] := rfl
    rw [hn1]
    rw [partitionTraverse]
    have hn2 : nextRound [PolyNode.node [⟨4000, 4000⟩, ⟨6000, 4000⟩, ⟨6000, 6000⟩,
        ⟨4000, 6000⟩] []] = [] := rfl
    rw [hn2]
    rw [partitionTraverse]
    simp only [roundParts, PolyNode.childs, PolyNode.contour,
      List.map_cons, List.map_nil, List.append_nil,
      List.nil_append, List.cons_append, List.singleton_append]

/-- Claim C8. `Partition` returns failure (Go: `nil, false`; here `none`)
exactly when the Boolean engine signals failure on its union `Execute`,
and otherwise returns a partition with `ok = true`; in particular the
empty layer yields the empty partition with `ok = true`. -/
theorem claim8 :
    (∀ (engine : Paths → Option (List PolyNode)) (l : Paths),
      generateLayerParts engine l = none ↔ engine (ingest l) = none) ∧
    generateLayerParts unionTree [] = some [] := by
  constructor
  · intro engine l
    unfold generateLayerParts
    cases engine (ingest l) <;> simp
  · have hu : unionTree (ingest []) = some [] := rfl
    simp only [generateLayerParts, hu]
    rw [partitionTraverse]

/-! ## The Inset loop

`Inset(part, offset, insetCount)` runs the offset engine once per inset
level.  The engine (`ClipperOffset.Execute` composed with the conversion
`microPaths(·, true)`, both external to the repository) stays an explicit
parameter `exec : Paths → Int → List Path`: it receives the added paths
(outline first, then the holes) and the signed offset distance, and
returns the produced walls. -/

/-- Go's integer division (`offset/2` on `data.Micrometer`), which
truncates toward zero. -/
def goDiv (a b : Int) : Int := Int.tdiv a b

/-- The distance handed to the offset engine at inset level `insetNr`:
`float64(-int(offset)*insetNr) - float64(offset/2)`.  Both conversions to
`float64` are exact for build-volume–sized micrometer values, so the
distance is the integer `-(offset·insetNr) - (offset/2)`. -/
def insetDistance (offset : Int) (insetNr : Nat) : Int :=
  -(offset * insetNr) - goDiv offset 2

/-- The walls produced at inset level `insetNr`: the engine executed on
the part's outline together with its holes at the level's distance
(`o.AddPaths({outline}); o.AddPaths(holes); o.Execute(...)`). -/
def levelWalls (exec : Paths → Int → List Path) (part : LayerPart) (offset : Int)
    (insetNr : Nat) : List Path :=
  exec (part.outline :: part.holes) (insetDistance offset insetNr)

/-- The body of the wall loop for a single wall `wallNr`:
`if len(insets) <= wallNr { insets = append(insets, []) }`, then the
padding loop `for len(insets[wallNr]) <= insetNr { append empty }`, then
`insets[wallNr][insetNr] = append(insets[wallNr][insetNr], wall)`. -/
def addWall (insetNr : Nat) (insets : List (List Paths)) (wallNr : Nat) (wall : Path) :
    List (List Paths) :=
  let insets1 := if insets.length ≤ wallNr then insets ++ [[]] else insets
  let slot := insets1.getD wallNr [] ++
    List.replicate (insetNr + 1 - (insets1.getD wallNr []).length) []
  insets1.set wallNr (slot.set insetNr (slot.getD insetNr [] ++ [wall]))

/-- The wall loop `for wallNr, wall := range microPaths(allNewInsets, true)`. -/
def addWalls (insetNr : Nat) (walls : List Path) (wallNr : Nat)
    (insets : List (List Paths)) : List (List Paths) :=
  match walls with
  | [] => insets
  | w :: ws => addWalls insetNr ws (wallNr + 1) (addWall insetNr insets wallNr w)

/-- The inset-level loop `for insetNr := 0; insetNr < insetCount; insetNr++`,
with the early `break` once a level produces no walls. -/
def insetLoopGo (walls : Nat → List Path) (insetCount insetNr : Nat)
    (insets : List (List Paths)) : List (List Paths) :=
  if insetCount ≤ insetNr then insets
  else if (walls insetNr).isEmpty then insets
  else insetLoopGo walls insetCount (insetNr + 1) (addWalls insetNr (walls insetNr) 0 insets)
termination_by insetCount - insetNr

/-- Embeds `clipperClipper.Inset`: the result is `[wall][insetNr]data.Paths`. -/
def Inset (exec : Paths → Int → List Path) (part : LayerPart) (offset : Int)
    (insetCount : Nat) : List (List Paths) :=
  insetLoopGo (levelWalls exec part offset) insetCount 0 []

/-! ## Claim C5: the distance of each inset level -/

/-- Claim C5. For every part, every `offset > 0` and every inset level `n`,
`Inset` computes the walls of level `n` by executing the polygon offset at
the signed distance `-(n·offset + offset/2)` (with `offset/2` the integer
division of the Micrometer value) on the part's outline together with its
holes; `Inset` is exactly the level loop over these engine calls, so the
first wall sits `offset/2` inside the outline and each following wall an
additional `offset` further in. -/
theorem claim5 (exec : Paths → Int → List Path) (part : LayerPart) (offset : Int)
    (insetCount n : Nat) (hpos : 0 < offset) :
    Inset exec part offset insetCount =
      insetLoopGo (levelWalls exec part offset) insetCount 0 [] ∧
    levelWalls exec part offset n =
      exec (part.outline :: part.holes) (-((n : Int) * offset + offset / 2)) := by
  refine ⟨rfl, ?_⟩
  unfold levelWalls insetDistance goDiv
  rw [Int.tdiv_eq_ediv (by omega) (by omega)]
  ring_nf

/-- A concrete offset engine used by witnesses: one wall recording the
requested distance. -/
def demoExec (ps : Paths) (d : Int) : List Path := [[⟨d, 0⟩]]

/-- Witness for C5 at a concrete engine, part, offset and level. -/
theorem claim5_witness :
    Inset demoExec ⟨[⟨0, 0⟩], []⟩ 400 2 =
      insetLoopGo (levelWalls demoExec ⟨[⟨0, 0⟩], []⟩ 400) 2 0 [] ∧
    levelWalls demoExec ⟨[⟨0, 0⟩], []⟩ 400 1 =
      demoExec ([⟨0, 0⟩] :: []) (-((1 : Int) * 400 + 400 / 2)) :=
  claim5 demoExec ⟨[⟨0, 0⟩], []⟩ 400 2 1 (by decide)

/-! ## List lemmas about getD, set, append and replicate -/

theorem getD_replicate {α : Type} (k j : Nat) (x : α) :
    (List.replicate k x).getD j x = x := by
  induction k generalizing j with
  | zero => simp [List.getD_nil]
  | succ k ih =>
    cases j with
    | zero => simp [List.replicate]
    | succ j =>
      rw [List.replicate_succ, List.getD_cons_succ]
      exact ih j

theorem getD_append_replicate {α : Type} (l : List α) (k j : Nat) (d : α) :
    (l ++ List.replicate k d).getD j d = l.getD j d := by
  induction l generalizing j with
  | nil => simp [getD_replicate, List.getD_nil]
  | cons a as ih =>
    cases j with
    | zero => simp
    | succ j =>
      rw [List.cons_append, List.getD_cons_succ, List.getD_cons_succ]
      exact ih j

theorem getD_append_single_default {α : Type} (l : List α) (d : α) (j : Nat) :
    (l ++ [d]).getD j d = l.getD j d := by
  have h := getD_append_replicate l 1 j d
  simpa using h

theorem getD_set_eq {α : Type} (l : List α) (n : Nat) (v d : α) (h : n < l.length) :
    (l.set n v).getD n d = v := by
  induction l generalizing n with
  | nil => simp at h
  | cons a as ih =>
    cases n with
    | zero => simp [List.set]
    | succ n =>
      simp only [List.length_cons, Nat.succ_lt_succ_iff] at h
      simpa [List.set] using ih n h

theorem getD_set_ne {α : Type} (l : List α) (n m : Nat) (v d : α) (h : m ≠ n) :
    (l.set n v).getD m d = l.getD m d := by
  induction l generalizing n m with
  | nil => simp [List.set]
  | cons a as ih =>
    cases n with
    | zero =>
      cases m with
      | zero => exact absurd rfl h
      | succ m => simp [List.set]
    | succ n =>
      cases m with
      | zero => simp [List.set]
      | succ m =>
        have hm : m ≠ n := by omega
        simpa [List.set] using ih n m hm

theorem getD_eq_default_of_le {α : Type} (l : List α) (j : Nat) (d : α)
    (h : l.length ≤ j) : l.getD j d = d := by
  induction l generalizing j with
  | nil => simp [List.getD_nil]
  | cons a as ih =>
    cases j with
    | zero => simp at h
    | succ j =>
      simp only [List.length_cons, Nat.succ_le_succ_iff] at h
      simpa using ih j h

/-! ## The shape of the Inset result (claim C6) -/

/-- The number of wall slots after processing the inset levels `< n`:
the maximum wall count any of those levels produced. -/
def numWallsUpTo (walls : Nat → List Path) : Nat → Nat
  | 0 => 0
  | n + 1 => max (numWallsUpTo walls n) (walls n).length

/-- The last level `< n` at which wall index `w` was present, if any. -/
def lastLevel (walls : Nat → List Path) : Nat → Nat → Option Nat
  | 0, _ => none
  | n + 1, w => if w < (walls n).length then some n else lastLevel walls n w

/-- The length of wall slot `w` after processing the inset levels `< n`. -/
def slotLen (walls : Nat → List Path) (n w : Nat) : Nat :=
  match lastLevel walls n w with
  | none => 0
  | some i => i + 1

/-- The level at which the inset loop stops when started at level `n`:
the first level `≥ n` that reaches `insetCount` or produces no walls
(the `break`). -/
def stopAt (walls : Nat → List Path) (insetCount n : Nat) : Nat :=
  if insetCount ≤ n then n
  else if (walls n).isEmpty then n
  else stopAt walls insetCount (n + 1)
termination_by insetCount - n

/-- The value of a wall slot after the padding loop and the write at
index `insetNr`. -/
def padSlotVal (slot : List Paths) (insetNr : Nat) (wall : Path) : List Paths :=
  let s := slot ++ List.replicate (insetNr + 1 - slot.length) []
  s.set insetNr (s.getD insetNr [] ++ [wall])

/-- The loop invariant of the inset loop: after processing the levels
`< n`, the wall-slot list has one slot per wall seen so far, every slot
`w` extends up to the last level at which wall `w` was present, and entry
`i` of slot `w` holds exactly the wall produced for `w` at level `i` (or
is an empty padding entry). -/
def InsetInv (walls : Nat → List Path) (n : Nat) (insets : List (List Paths)) : Prop :=
  insets.length = numWallsUpTo walls n ∧
  (∀ w, (insets.getD w []).length = slotLen walls n w) ∧
  (∀ w j, (insets.getD w []).getD j [] =
    if j < n ∧ w < (walls j).length then [(walls j).getD w []] else [])

theorem lastLevel_spec (walls : Nat → List Path) (n w : Nat) :
    ∀ i, lastLevel walls n w = some i →
      i < n ∧ w < (walls i).length := by
  induction n with
  | zero => intro i h; simp [lastLevel] at h
  | succ n ih =>
    intro i h
    unfold lastLevel at h
    by_cases hw : w < (walls n).length
    · rw [if_pos hw] at h
      cases h
      exact ⟨Nat.lt_succ_self n, hw⟩
    · rw [if_neg hw] at h
      have := ih i h
      exact ⟨Nat.lt_succ_of_lt this.1, this.2⟩

theorem lastLevel_ge (walls : Nat → List Path) (n w i : Nat)
    (hi : i < n) (hw : w < (walls i).length) :
    ∃ i2, lastLevel walls n w = some i2 ∧ i ≤ i2 := by
  induction n with
  | zero => omega
  | succ n ih =>
    unfold lastLevel
    by_cases hw2 : w < (walls n).length
    · exact ⟨n, by rw [if_pos hw2], by omega⟩
    · have hi2 : i < n := by
        rcases Nat.lt_succ_iff_lt_or_eq.mp hi with h | h
        · exact h
        · subst h; exact absurd hw hw2
      rcases ih hi2 with ⟨i2, h1, h2⟩
      exact ⟨i2, by rw [if_neg hw2]; exact h1, h2⟩

theorem slotLen_le (walls : Nat → List Path) (n w : Nat) :
    slotLen walls n w ≤ n := by
  unfold slotLen
  cases h : lastLevel walls n w with
  | none => simp
  | some i =>
    have := (lastLevel_spec walls n w i h).1
    simpa using this

theorem lt_numWallsUpTo (walls : Nat → List Path) (n w i : Nat)
    (hi : i < n) (hw : w < (walls i).length) :
    w < numWallsUpTo walls n := by
  induction n with
  | zero => omega
  | succ n ih =>
    unfold numWallsUpTo
    rcases Nat.lt_succ_iff_lt_or_eq.mp hi with h | h
    · have := ih h; omega
    · subst h; omega

theorem addWall_length (insetNr : Nat) (insets : List (List Paths)) (j : Nat)
    (wall : Path) (hj : j ≤ insets.length) :
    (addWall insetNr insets j wall).length = max insets.length (j + 1) := by
  unfold addWall
  by_cases h : insets.length ≤ j
  · rw [if_pos h]
    simp only [List.length_set, List.length_append, List.length_cons, List.length_nil]
    omega
  · rw [if_neg h]
    simp only [List.length_set]
    omega

theorem addWall_getD_lt (insetNr : Nat) (insets : List (List Paths)) (j : Nat)
    (wall : Path) (hj : j ≤ insets.length) :
    j < (addWall insetNr insets j wall).length := by
  rw [addWall_length insetNr insets j wall hj]
  omega

theorem addWall_getD_eq (insetNr : Nat) (insets : List (List Paths)) (j : Nat)
    (wall : Path) (hj : j ≤ insets.length) :
    (addWall insetNr insets j wall).getD j [] =
      padSlotVal (insets.getD j []) insetNr wall := by
  unfold addWall padSlotVal
  by_cases h : insets.length ≤ j
  · rw [if_pos h]
    have hget : (insets ++ [[]]).getD j ([] : List Paths) = insets.getD j [] :=
      getD_append_single_default insets [] j
    have hlen : j < (insets ++ ([[]] : List (List Paths))).length := by
      simp only [List.length_append, List.length_cons, List.length_nil]
      omega
    rw [getD_set_eq _ _ _ _ hlen, hget]
  · rw [if_neg h]
    have hlen : j < insets.length := by omega
    rw [getD_set_eq _ _ _ _ hlen]

theorem addWall_getD_ne (insetNr : Nat) (insets : List (List Paths)) (j w : Nat)
    (wall : Path) (hw : w ≠ j) :
    (addWall insetNr insets j wall).getD w [] = insets.getD w [] := by
  unfold addWall
  by_cases h : insets.length ≤ j
  · rw [if_pos h]
    rw [getD_set_ne _ _ _ _ _ hw]
    exact getD_append_single_default insets [] w
  · rw [if_neg h]
    rw [getD_set_ne _ _ _ _ _ hw]

theorem addWalls_spec (insetNr : Nat) (ws : List Path) :
    ∀ (j : Nat) (insets : List (List Paths)), j ≤ insets.length →
      (addWalls insetNr ws j insets).length = max insets.length (j + ws.length) ∧
      (∀ w, (addWalls insetNr ws j insets).getD w [] =
        if j ≤ w ∧ w < j + ws.length
        then padSlotVal (insets.getD w []) insetNr (ws.getD (w - j) [])
        else insets.getD w []) := by
  induction ws with
  | nil =>
    intro j insets hj
    unfold addWalls
    constructor
    · simp only [List.length_nil]
      omega
    · intro w
      rw [if_neg (by simp only [List.length_nil]; omega)]
  | cons w0 ws ih =>
    intro j insets hj
    unfold addWalls
    have hj1 : j + 1 ≤ (addWall insetNr insets j w0).length := by
      rw [addWall_length insetNr insets j w0 hj]
      omega
    rcases ih (j + 1) (addWall insetNr insets j w0) hj1 with ⟨ihLen, ihGet⟩
    constructor
    · rw [ihLen, addWall_length insetNr insets j w0 hj]
      simp only [List.length_cons]
      omega
    · intro w
      rw [ihGet w]
      by_cases hcase : j + 1 ≤ w ∧ w < j + 1 + ws.length
      · rw [if_pos hcase, if_pos (by simp only [List.length_cons]; omega)]
        rw [addWall_getD_ne insetNr insets j w w0 (by omega)]
        have hidx : w - j = (w - (j + 1)) + 1 := by omega
        rw [hidx, List.getD_cons_succ]
      · rw [if_neg hcase]
        by_cases hw0 : w = j
        · subst hw0
          rw [if_pos (by simp only [List.length_cons]; omega)]
          rw [addWall_getD_eq insetNr insets w w0 hj]
          simp
        · rw [addWall_getD_ne insetNr insets j w w0 hw0]
          rw [if_neg (by simp only [List.length_cons]; omega)]

theorem padSlotVal_length (slot : List Paths) (n : Nat) (wall : Path)
    (h : slot.length ≤ n) :
    (padSlotVal slot n wall).length = n + 1 := by
  unfold padSlotVal
  simp only [List.length_set, List.length_append, List.length_replicate]
  omega

theorem lastLevel_succ (walls : Nat → List Path) (n w : Nat) :
    lastLevel walls (n + 1) w =
      if w < (walls n).length then some n else lastLevel walls n w := rfl

theorem slotLen_succ_of_lt (walls : Nat → List Path) (n w : Nat)
    (hw : w < (walls n).length) : slotLen walls (n + 1) w = n + 1 := by
  unfold slotLen
  rw [lastLevel_succ, if_pos hw]

theorem slotLen_succ_of_ge (walls : Nat → List Path) (n w : Nat)
    (hw : ¬ w < (walls n).length) : slotLen walls (n + 1) w = slotLen walls n w := by
  unfold slotLen
  rw [lastLevel_succ, if_neg hw]

theorem inv_step (walls : Nat → List Path) (n : Nat) (insets : List (List Paths))
    (hInv : InsetInv walls n insets) :
    InsetInv walls (n + 1) (addWalls n (walls n) 0 insets) := by
  rcases hInv with ⟨hLen, hSlotLen, hEntry⟩
  rcases addWalls_spec n (walls n) 0 insets (Nat.zero_le _) with ⟨hALen, hAGet⟩
  have hslot_le : ∀ w, (insets.getD w []).length ≤ n := by
    intro w
    rw [hSlotLen w]
    exact slotLen_le walls n w
  have hpadlen : ∀ w, w < (walls n).length →
      ((addWalls n (walls n) 0 insets).getD w []).length = n + 1 := by
    intro w hw
    rw [hAGet w, if_pos (by omega)]
    exact padSlotVal_length _ _ _ (hslot_le w)
  have hs_getD : ∀ w j, w < (walls n).length → j ≠ n →
      ((addWalls n (walls n) 0 insets).getD w []).getD j [] =
        (insets.getD w []).getD j [] := by
    intro w j hw hj
    rw [hAGet w, if_pos (by omega)]
    unfold padSlotVal
    rw [getD_set_ne _ _ _ _ _ hj, getD_append_replicate]
  refine ⟨?_, ?_, ?_⟩
  · rw [hALen, hLen]
    simp only [numWallsUpTo, Nat.zero_add]
  · intro w
    by_cases hw : w < (walls n).length
    · rw [hpadlen w hw, slotLen_succ_of_lt walls n w hw]
    · rw [hAGet w, if_neg (by omega), hSlotLen w, slotLen_succ_of_ge walls n w hw]
  · intro w j
    by_cases hw : w < (walls n).length
    · by_cases hj : j = n
      · subst hj
        rw [hAGet w, if_pos (by omega)]
        unfold padSlotVal
        have hsn : ((insets.getD w [] ++
            List.replicate (j + 1 - (insets.getD w []).length) []).getD j []) = [] := by
          rw [getD_append_replicate]
          rw [hEntry w j, if_neg (by omega)]
        have hjlen : j < (insets.getD w [] ++
            List.replicate (j + 1 - (insets.getD w []).length) []).length := by
          simp only [List.length_append, List.length_replicate]
          have := hslot_le w
          omega
        rw [getD_set_eq _ _ _ _ hjlen, hsn]
        rw [if_pos ⟨by omega, hw⟩]
        simp
      · rw [hs_getD w j hw hj, hEntry w j]
        by_cases hcond : j < n ∧ w < (walls j).length
        · rw [if_pos hcond, if_pos ⟨by omega, hcond.2⟩]
        · rw [if_neg hcond, if_neg (by omega)]
    · rw [hAGet w, if_neg (by omega), hEntry w j]
      by_cases hcond : j < n ∧ w < (walls j).length
      · rw [if_pos hcond, if_pos ⟨by omega, hcond.2⟩]
      · have hcond2 : ¬ (j < n + 1 ∧ w < (walls j).length) := by
          intro hc
          rcases hc with ⟨hc1, hc2⟩
          by_cases hjn : j = n
          · subst hjn; exact hw hc2
          · exact hcond ⟨by omega, hc2⟩
        rw [if_neg hcond, if_neg hcond2]

theorem insetLoopGo_inv (walls : Nat → List Path) (insetCount : Nat) :
    ∀ (fuel n : Nat) (insets : List (List Paths)), insetCount - n ≤ fuel →
      InsetInv walls n insets →
      InsetInv walls (stopAt walls insetCount n) (insetLoopGo walls insetCount n insets) := by
  intro fuel
  induction fuel with
  | zero =>
    intro n insets hfuel hInv
    have h1 : insetCount ≤ n := by omega
    rw [insetLoopGo, stopAt, if_pos h1, if_pos h1]
    exact hInv
  | succ fuel ih =>
    intro n insets hfuel hInv
    by_cases h1 : insetCount ≤ n
    · rw [insetLoopGo, stopAt, if_pos h1, if_pos h1]
      exact hInv
    · by_cases h2 : (walls n).isEmpty
      · rw [insetLoopGo, stopAt, if_neg h1, if_neg h1, if_pos h2, if_pos h2]
        exact hInv
      · rw [insetLoopGo, stopAt, if_neg h1, if_neg h1, if_neg h2, if_neg h2]
        exact ih (n + 1) _ (by omega) (inv_step walls n insets hInv)

/-- The full characterization of `Inset`'s result shape: the loop
invariant holds at the stopping level. -/
theorem Inset_inv (exec : Paths → Int → List Path) (part : LayerPart) (offset : Int)
    (insetCount : Nat) :
    InsetInv (levelWalls exec part offset)
      (stopAt (levelWalls exec part offset) insetCount 0)
      (Inset exec part offset insetCount) := by
  refine insetLoopGo_inv (levelWalls exec part offset) insetCount insetCount 0 []
    (by omega) ⟨rfl, ?_, ?_⟩
  · intro w
    simp [List.getD_nil, slotLen, lastLevel]
  · intro w j
    simp [List.getD_nil]

/-- Claim C6. In the result of `Inset(part, offset, insetCount)` the inset
index is globally aligned across walls: when a wall index `w` first
receives paths at inset level `n` (it is present at level `n` but at no
earlier level), then slot `w` exists, its entries at every index `i < n`
exist and are empty path lists, and its entry at index `n` holds exactly
the wall the engine produced; in general the entry of any wall `w2` at
any index `i2` is exactly the wall produced for `w2` at inset level `i2`,
or an empty list when that level produced no wall `w2`. -/
theorem claim6 (exec : Paths → Int → List Path) (part : LayerPart) (offset : Int)
    (insetCount w n i w2 i2 : Nat)
    (hn : n < stopAt (levelWalls exec part offset) insetCount 0)
    (hw : w < (levelWalls exec part offset n).length)
    (hfirst : ∀ m, m < n → (levelWalls exec part offset m).length ≤ w)
    (hi : i < n) :
    w < (Inset exec part offset insetCount).length ∧
    n < ((Inset exec part offset insetCount).getD w []).length ∧
    ((Inset exec part offset insetCount).getD w []).getD i [] = [] ∧
    ((Inset exec part offset insetCount).getD w []).getD n [] =
      [(levelWalls exec part offset n).getD w []] ∧
    (((Inset exec part offset insetCount).getD w2 []).getD i2 [] =
      if i2 < stopAt (levelWalls exec part offset) insetCount 0 ∧
          w2 < (levelWalls exec part offset i2).length
      then [(levelWalls exec part offset i2).getD w2 []] else []) := by
  rcases Inset_inv exec part offset insetCount with ⟨hLen, hSlotLen, hEntry⟩
  refine ⟨?_, ?_, ?_, ?_, ?_⟩
  · rw [hLen]
    exact lt_numWallsUpTo _ _ w n hn hw
  · rw [hSlotLen w]
    rcases lastLevel_ge (levelWalls exec part offset)
      (stopAt (levelWalls exec part offset) insetCount 0) w n hn hw with ⟨l, hsome, hge⟩
    unfold slotLen
    rw [hsome]
    show n < l + 1
    omega
  · rw [hEntry w i, if_neg]
    intro hc
    exact absurd hc.2 (by have := hfirst i hi; omega)
  · rw [hEntry w n, if_pos ⟨hn, hw⟩]
  · exact hEntry w2 i2

/-- A concrete offset engine for the C6 witness: one wall at the first two
levels, a second wall appearing only at the third level (the pinch-split
scenario S5). -/
def splitExec (ps : Paths) (d : Int) : List Path :=
  if d = -200 then [[⟨1, 0⟩]]
  else if d = -600 then [[⟨2, 0⟩]]
  else if d = -1000 then [[⟨3, 0⟩], [⟨4, 0⟩]]
  else []

/-- A concrete one-vertex part used by witnesses. -/
def demoPart : LayerPart := ⟨[⟨0, 0⟩], []⟩

/-- Witness for C6: with `offset = 400` and `insetCount = 3`, wall 1 first
appears at inset level 2; its earlier slots exist and are empty. -/
theorem claim6_witness :
    1 < (Inset splitExec demoPart 400 3).length ∧
    2 < ((Inset splitExec demoPart 400 3).getD 1 []).length ∧
    ((Inset splitExec demoPart 400 3).getD 1 []).getD 0 [] = [] ∧
    ((Inset splitExec demoPart 400 3).getD 1 []).getD 2 [] =
      [(levelWalls splitExec demoPart 400 2).getD 1 []] ∧
    (((Inset splitExec demoPart 400 3).getD 1 []).getD 1 [] =
      if 1 < stopAt (levelWalls splitExec demoPart 400) 3 0 ∧
          1 < (levelWalls splitExec demoPart 400 1).length
      then [(levelWalls splitExec demoPart 400 1).getD 1 []] else []) := by
  have hstop : stopAt (levelWalls splitExec demoPart 400) 3 0 = 3 := by
    rw [stopAt, if_neg (by decide), if_neg (by decide)]
    rw [stopAt, if_neg (by decide), if_neg (by decide)]
    rw [stopAt, if_neg (by decide), if_neg (by decide)]
    rw [stopAt, if_pos (by decide)]
  exact claim6 splitExec demoPart 400 3 1 2 0 1 1
    (by rw [hstop]; omega) (by decide) (by decide) (by decide)

/-! ## The perimeter modifier's overlap loop (claim C3)

`Modify` of the perimeter modifier builds the value stored under the
attribute key "overlapPerimeters" by looping over the parts of the
layer's inset result.  The per-insetPart computation
(`calculateOverlapPerimeter`, which never returns an error) stays an
abstract total function `g`; the element type of the innermost inset list
stays an abstract type `α`.  Go panics (indexing `part[len(part)-1]` of an
empty part, or an out-of-range slot write) become `none`. -/

/-- The part loop of `Modify`:
`if len(overlapPerimeter) >= partNr { append(overlapPerimeter, nil) }`,
then for every inset part of the part's last entry the computed overlap
perimeters are appended to slot `partNr`. -/
def overlapLoopGo {α : Type} (g : α → List LayerPart) (partNr : Nat)
    (insetParts : List (List (List α))) (acc : List (List LayerPart)) :
    Option (List (List LayerPart)) :=
  match insetParts with
  | [] => some acc
  | part :: rest =>
    let acc1 := if partNr ≤ acc.length then acc ++ [[]] else acc
    match part.getLast? with
    | none => none
    | some lastWall =>
      if partNr < acc1.length then
        overlapLoopGo g (partNr + 1) rest
          (acc1.set partNr (acc1.getD partNr [] ++ lastWall.flatMap g))
      else none

/-- The value stored under the layer attribute key "overlapPerimeters"
after `Modify` ran over the inset result `insetParts`. -/
def overlapPerimetersAttr {α : Type} (g : α → List LayerPart)
    (insetParts : List (List (List α))) : Option (List (List LayerPart)) :=
  overlapLoopGo g 0 insetParts []

theorem overlapLoopGo_spec {α : Type} (g : α → List LayerPart) :
    ∀ (parts : List (List (List α))) (partNr : Nat) (acc : List (List LayerPart)),
      acc.length = partNr → (∀ part, part ∈ parts → part ≠ []) →
      ∃ r, overlapLoopGo g partNr parts acc = some r ∧
        r.length = partNr + parts.length ∧
        (∀ p, p < partNr → r.getD p [] = acc.getD p []) ∧
        (∀ k, k < parts.length →
          r.getD (partNr + k) [] = ((parts.getD k []).getLast?.getD []).flatMap g) := by
  intro parts
  induction parts with
  | nil =>
    intro partNr acc hlen hne
    refine ⟨acc, rfl, by simp [hlen], fun p hp => rfl, fun k hk => by simp at hk⟩
  | cons part rest ih =>
    intro partNr acc hlen hne
    have hpart : part ≠ [] := hne part (by simp)
    have hguard : partNr ≤ acc.length := by omega
    have hlast : ∃ lw, part.getLast? = some lw := by
      cases hget : part.getLast? with
      | none => exact absurd (List.getLast?_eq_none_iff.mp hget) hpart
      | some lw => exact ⟨lw, rfl⟩
    rcases hlast with ⟨lw, hlw⟩
    have hlen1 : (acc ++ [[]] : List (List LayerPart)).length = partNr + 1 := by
      simp [hlen]
    have hgetPartNr : (acc ++ [[]] : List (List LayerPart)).getD partNr [] = [] := by
      rw [getD_append_single_default]
      exact getD_eq_default_of_le acc partNr [] (by omega)
    have hidx : partNr < (acc ++ [[]] : List (List LayerPart)).length := by omega
    have hlen2 : ((acc ++ [[]] : List (List LayerPart)).set partNr
        ((acc ++ [[]] : List (List LayerPart)).getD partNr [] ++ lw.flatMap g)).length =
        partNr + 1 := by
      simp [hlen1]
    rcases ih (partNr + 1)
        ((acc ++ [[]]).set partNr ((acc ++ [[]] : List (List LayerPart)).getD partNr [] ++
          lw.flatMap g)) hlen2 (fun q hq => hne q (by simp [hq])) with
      ⟨r, hr, hrlen, hrlow, hrnew⟩
    refine ⟨r, ?_, ?_, ?_, ?_⟩
    · unfold overlapLoopGo
      simp only [hlw, if_pos hguard]
      rw [if_pos hidx]
      exact hr
    · rw [hrlen]
      simp only [List.length_cons]
      omega
    · intro p hp
      rw [hrlow p (by omega)]
      rw [getD_set_ne _ _ _ _ _ (by omega)]
      rw [getD_append_single_default]
    · intro k hk
      cases k with
      | zero =>
        have h0 := hrlow partNr (by omega)
        rw [Nat.add_zero, h0]
        rw [getD_set_eq _ _ _ _ hidx, hgetPartNr]
        simp [hlw]
      | succ k =>
        have hk2 : k < rest.length := by
          simp only [List.length_cons] at hk
          omega
        have := hrnew k hk2
        have harith : partNr + (k + 1) = partNr + 1 + k := by omega
        rw [harith, this]
        simp

/-- Claim C3. After the perimeter modifier's `Modify` runs on a layer, the
value stored under the attribute key "overlapPerimeters" has exactly one
slot per part: its length equals the number of parts of the inset result,
and slot `p` holds exactly the overlap perimeters computed from part `p`
(appended over the part's last wall entry).  The guard
`len(overlapPerimeter) >= partNr` fires on every iteration — the slice
length equals `partNr` at the head of each iteration — so it appends
exactly one fresh slot per part, never skipping and never duplicating. -/
theorem claim3 {α : Type} (g : α → List LayerPart) (insetParts : List (List (List α)))
    (hne : ∀ part, part ∈ insetParts → part ≠ []) :
    ∃ r, overlapPerimetersAttr g insetParts = some r ∧
      r.length = insetParts.length ∧
      ∀ p, p < insetParts.length →
        r.getD p [] = ((insetParts.getD p []).getLast?.getD []).flatMap g := by
  rcases overlapLoopGo_spec g insetParts 0 [] rfl hne with ⟨r, hr, hrlen, _, hrnew⟩
  refine ⟨r, hr, by simpa using hrlen, ?_⟩
  intro p hp
  have := hrnew p hp
  simpa using this

/-- Witness for C3 at a concrete inset result with two parts. -/
theorem claim3_witness :
    ∃ r, overlapPerimetersAttr (fun k : Nat => [⟨[⟨Int.ofNat k, 0⟩], []⟩])
        [[[1], [2]], [[3]]] = some r ∧
      r.length = ([[[1], [2]], [[3]]] : List (List (List Nat))).length ∧
      ∀ p, p < ([[[1], [2]], [[3]]] : List (List (List Nat))).length →
        r.getD p [] = ((([[[1], [2]], [[3]]] : List (List (List Nat))).getD p
          []).getLast?.getD []).flatMap (fun k : Nat => [⟨[⟨Int.ofNat k, 0⟩], []⟩]) :=
  claim3 (fun k : Nat => [⟨[⟨Int.ofNat k, 0⟩], []⟩]) [[[1], [2]], [[3]]] (by decide)

/-! ## The scan-line generation of getLinearFill (claims C4 and C10) -/

/-- Modelled from the spec: `data.Paths.Size` (the data package is not
among the given sources): "a bounding box operation size() returning
(min-point, max-point) over all contained points".  The empty path set
gets the degenerate box at the origin. -/
def sizeOfPaths (ps : Paths) : MicroPoint × MicroPoint :=
  match ps.flatMap id with
  | [] => (⟨0, 0⟩, ⟨0, 0⟩)
  | q :: rest =>
    (rest.foldl (fun mn p => ⟨min mn.x p.x, min mn.y p.y⟩) q,
     rest.foldl (fun mx p => ⟨max mx.x p.x, max mx.y p.y⟩) q)

/-- One scan segment of `getLinearFill`: at odd line numbers from
`(x, max.y)` to `(x, min.y)`, at even ones from `(x, min.y)` to
`(x, max.y)` (the `numLine%2 == 1` switch). -/
def scanSeg (minY maxY x : Int) (numLine : Nat) : Path :=
  if numLine % 2 = 1 then [⟨x, maxY⟩, ⟨x, minY⟩] else [⟨x, minY⟩, ⟨x, maxY⟩]

/-- The scan-line loop `for x := min.X(); x <= max.X(); x += lineWidth`.
This total rendering additionally guards on `0 < w`; the loop as written
is `scanLinesFuel` (no-overflow convention) and `scanLinesFuelWrap`
(Go's wrapping int64 addition) below, and they agree with this one
wherever the loop terminates without wrapping. -/
def scanLinesGo (minY maxY maxX w x : Int) (numLine : Nat) : Paths :=
  if h : x ≤ maxX ∧ 0 < w then
    scanSeg minY maxY x numLine :: scanLinesGo minY maxY maxX w (x + w) (numLine + 1)
  else []
termination_by (maxX + 1 - x).toNat
decreasing_by omega

/-- The scan-line loop metered by a fuel counter under the no-overflow
convention (the loop variable as unbounded `Int`): faithful to the source
exactly as long as `x += lineWidth` never leaves the signed 64-bit range,
which the spec's §4.1 bounded-inputs contract guarantees for positive
line widths.  `none` means the loop is still running after `fuel`
iterations.  The rendering faithful to Go's wrapping int64 addition for
*all* line widths is `scanLinesFuelWrap` below. -/
def scanLinesFuel (minY maxY maxX w : Int) (fuel : Nat) (x : Int) (numLine : Nat) :
    Option Paths :=
  if x ≤ maxX then
    match fuel with
    | 0 => none
    | fuel + 1 =>
      (scanLinesFuel minY maxY maxX w fuel (x + w) (numLine + 1)).map
        (scanSeg minY maxY x numLine :: ·)
  else some []

/-- The raw (pre-clip) scan-line set of `getLinearFill` for the bounding
box `(mn, mx)`: the loop run with the fuel it needs when `w > 0`
(`scanLines_eq_go` below shows this equals the guarded loop rendering). -/
def scanLines (mn mx : MicroPoint) (w : Int) : Paths :=
  (scanLinesFuel mn.y mx.y mx.x w (mx.x + 1 - mn.x).toNat mn.x 0).getD []

/-- The number of scan lines for the bounding box `(mn, mx)` and line
width `w > 0`: one per `x = mn.x + k·w` with `x ≤ mx.x`. -/
def numScan (mn mx : MicroPoint) (w : Int) : Nat :=
  if mn.x ≤ mx.x then (mx.x - mn.x).toNat / w.toNat + 1 else 0

theorem scanLinesGo_eq (minY maxY maxX w : Int) (hw : 0 < w) :
    ∀ (m : Nat) (x : Int) (n : Nat), (maxX + 1 - x).toNat ≤ m →
      scanLinesGo minY maxY maxX w x n =
        (List.range (if x ≤ maxX then (maxX - x).toNat / w.toNat + 1 else 0)).map
          (fun (k : Nat) => scanSeg minY maxY (x + (k : Int) * w) (n + k)) := by
  intro m
  induction m with
  | zero =>
    intro x n hm
    have hx : ¬ x ≤ maxX := by omega
    rw [scanLinesGo, dif_neg (by omega), if_neg hx]
    simp
  | succ m ih =>
    intro x n hm
    by_cases hx : x ≤ maxX
    · rw [scanLinesGo, dif_pos ⟨hx, hw⟩, if_pos hx]
      rw [ih (x + w) (n + 1) (by omega)]
      have hcnt : (maxX - x).toNat / w.toNat + 1 =
          (if x + w ≤ maxX then (maxX - (x + w)).toNat / w.toNat + 1 else 0) + 1 := by
        by_cases hxw : x + w ≤ maxX
        · rw [if_pos hxw]
          have hsplit : (maxX - x).toNat = (maxX - (x + w)).toNat + w.toNat := by omega
          rw [hsplit, Nat.add_div_right _ (by omega)]
        · rw [if_neg hxw]
          have : (maxX - x).toNat < w.toNat := by omega
          rw [Nat.div_eq_of_lt this]
      rw [hcnt, List.range_succ_eq_map, List.map_cons, List.map_map]
      have hhead : scanSeg minY maxY x n = scanSeg minY maxY (x + (0 : Nat) * w) (n + 0) := by
        norm_num
      rw [hhead]
      congr 1
      apply List.map_congr_left
      intro k hk
      show scanSeg minY maxY (x + w + (k : Int) * w) (n + 1 + k) =
        scanSeg minY maxY (x + ((k + 1 : Nat) : Int) * w) (n + (k + 1))
      have h1 : x + w + (k : Int) * w = x + ((k + 1 : Nat) : Int) * w := by
        push_cast
        ring
      have h2 : n + 1 + k = n + (k + 1) := by omega
      rw [h1, h2]
    · rw [scanLinesGo, dif_neg (by omega), if_neg hx]
      simp

theorem claim4_second_part (mn mx : MicroPoint) (w : Int) (k : Nat) (hw : 0 < w) :
    mn.x + (k : Int) * w ≤ mx.x ↔ k < numScan mn mx w := by
  unfold numScan
  by_cases hx : mn.x ≤ mx.x
  · rw [if_pos hx]
    have hwn : 0 < w.toNat := by omega
    have hW : (w.toNat : Int) = w := Int.toNat_of_nonneg (by omega)
    have hD : ((mx.x - mn.x).toNat : Int) = mx.x - mn.x := Int.toNat_of_nonneg (by omega)
    constructor
    · intro h
      have hcast : ((k * w.toNat : Nat) : Int) ≤ (((mx.x - mn.x).toNat : Nat) : Int) := by
        push_cast [hW, hD]
        omega
      have h3 : k * w.toNat ≤ (mx.x - mn.x).toNat := by exact_mod_cast hcast
      have h4 : k ≤ (mx.x - mn.x).toNat / w.toNat := (Nat.le_div_iff_mul_le hwn).mpr h3
      omega
    · intro h
      have h4 : k ≤ (mx.x - mn.x).toNat / w.toNat := by omega
      have h3 : k * w.toNat ≤ (mx.x - mn.x).toNat := (Nat.le_div_iff_mul_le hwn).mp h4
      have hcast : ((k * w.toNat : Nat) : Int) ≤ (((mx.x - mn.x).toNat : Nat) : Int) := by
        exact_mod_cast h3
      rw [hD] at hcast
      push_cast [hW] at hcast
      omega
  · rw [if_neg hx]
    have hnn : 0 ≤ (k : Int) * w := mul_nonneg (Int.natCast_nonneg k) (le_of_lt hw)
    constructor
    · intro h; omega
    · intro h; omega

theorem scanLinesFuel_none (minY maxY maxX w : Int) (hw : w ≤ 0) :
    ∀ (fuel : Nat) (x : Int) (n : Nat), x ≤ maxX →
      scanLinesFuel minY maxY maxX w fuel x n = none := by
  intro fuel
  induction fuel with
  | zero =>
    intro x n hx
    rw [scanLinesFuel, if_pos hx]
  | succ fuel ih =>
    intro x n hx
    rw [scanLinesFuel, if_pos hx]
    rw [ih (x + w) (n + 1) (by omega)]
    rfl

theorem scanLinesFuel_some (minY maxY maxX w : Int) (hw : 0 < w) :
    ∀ (fuel : Nat) (x : Int) (n : Nat), (maxX + 1 - x).toNat ≤ fuel →
      scanLinesFuel minY maxY maxX w fuel x n =
        some (scanLinesGo minY maxY maxX w x n) := by
  intro fuel
  induction fuel with
  | zero =>
    intro x n hfuel
    have hx : ¬ x ≤ maxX := by omega
    rw [scanLinesFuel, if_neg hx, scanLinesGo, dif_neg (by omega)]
  | succ fuel ih =>
    intro x n hfuel
    by_cases hx : x ≤ maxX
    · rw [scanLinesGo, dif_pos ⟨hx, hw⟩]
      rw [scanLinesFuel, if_pos hx, ih (x + w) (n + 1) (by omega)]
      rfl
    · rw [scanLinesFuel, if_neg hx, scanLinesGo, dif_neg (by omega)]

theorem scanLinesFuel_det (minY maxY maxX w : Int) :
    ∀ (fuel : Nat) (x : Int) (n : Nat) (r : Paths),
      scanLinesFuel minY maxY maxX w fuel x n = some r →
      r = scanLinesGo minY maxY maxX w x n := by
  intro fuel
  induction fuel with
  | zero =>
    intro x n r hr
    by_cases hx : x ≤ maxX
    · rw [scanLinesFuel, if_pos hx] at hr
      exact absurd hr (by simp)
    · rw [scanLinesFuel, if_neg hx] at hr
      rw [scanLinesGo, dif_neg (by omega)]
      cases hr
      rfl
  | succ fuel ih =>
    intro x n r hr
    by_cases hx : x ≤ maxX
    · by_cases hw : 0 < w
      · rw [scanLinesFuel, if_pos hx] at hr
        cases hrec : scanLinesFuel minY maxY maxX w fuel (x + w) (n + 1) with
        | none => rw [hrec] at hr; exact absurd hr (by simp)
        | some r2 =>
          rw [hrec] at hr
          cases hr
          rw [scanLinesGo, dif_pos ⟨hx, hw⟩, ih (x + w) (n + 1) r2 hrec]
      · have := scanLinesFuel_none minY maxY maxX w (by omega) (fuel + 1) x n hx
        rw [this] at hr
        exact absurd hr (by simp)
    · rw [scanLinesFuel, if_neg hx] at hr
      rw [scanLinesGo, dif_neg (by omega)]
      cases hr
      rfl

theorem scanLines_eq_go (mn mx : MicroPoint) (w : Int) (hw : 0 < w) :
    scanLines mn mx w = scanLinesGo mn.y mx.y mx.x w mn.x 0 := by
  unfold scanLines
  rw [scanLinesFuel_some mn.y mx.y mx.x w hw _ mn.x 0 (le_refl _)]
  rfl

/-- Claim C4. For every bounding box `(mn, mx)` and every `lineWidth w > 0`,
the raw scan-line set consists of one vertical segment at each
`x = mn.x + k·w` for `k = 0, 1, …` while `x ≤ mx.x` (`k` ranges over
exactly `numScan` values), and consecutive segments alternate direction:
even `k` runs `(x, mn.y) → (x, mx.y)` and odd `k` runs
`(x, mx.y) → (x, mn.y)`. -/
theorem claim4 (mn mx : MicroPoint) (w : Int) (k : Nat) (yA yB x : Int) (hw : 0 < w) :
    scanLines mn mx w =
      (List.range (numScan mn mx w)).map
        (fun (k2 : Nat) => scanSeg mn.y mx.y (mn.x + (k2 : Int) * w) k2) ∧
    (mn.x + (k : Int) * w ≤ mx.x ↔ k < numScan mn mx w) ∧
    scanSeg yA yB x k =
      (if k % 2 = 1 then [⟨x, yB⟩, ⟨x, yA⟩] else [⟨x, yA⟩, ⟨x, yB⟩]) := by
  refine ⟨?_, claim4_second_part mn mx w k hw, rfl⟩
  rw [scanLines_eq_go mn mx w hw]
  unfold numScan
  rw [scanLinesGo_eq mn.y mx.y mx.x w hw (mx.x + 1 - mn.x).toNat mn.x 0 (by omega)]
  apply List.map_congr_left
  intro k2 hk2
  rw [Nat.zero_add]

/-- Witness for C4 at the scenario-S1 box and `w = 400`. -/
theorem claim4_witness :
    scanLines ⟨0, 0⟩ ⟨1000, 1000⟩ 400 =
      (List.range (numScan ⟨0, 0⟩ ⟨1000, 1000⟩ 400)).map
        (fun (k2 : Nat) => scanSeg 0 1000 (0 + (k2 : Int) * 400) k2) ∧
    ((0 : Int) + (1 : Nat) * 400 ≤ 1000 ↔ 1 < numScan ⟨0, 0⟩ ⟨1000, 1000⟩ 400) ∧
    scanSeg 0 1000 400 1 =
      (if 1 % 2 = 1 then [⟨400, 1000⟩, ⟨400, 0⟩] else [⟨400, 0⟩, ⟨400, 1000⟩]) :=
  claim4 ⟨0, 0⟩ ⟨1000, 1000⟩ 400 1 0 1000 400 (by decide)

/-- Go's wrapping signed 64-bit arithmetic: the value of an int64 after
two's-complement wraparound. -/
def wrap64 (v : Int) : Int := (v + 2 ^ 63) % 2 ^ 64 - 2 ^ 63

theorem wrap64_eq (v : Int) (h1 : -(2 ^ 63) ≤ v) (h2 : v < 2 ^ 63) :
    wrap64 v = v := by
  unfold wrap64
  omega

/-- The scan-line loop as literally written, metered by a fuel counter,
with Go's wrapping signed 64-bit addition `x += lineWidth`: faithful to
the source for every line width, including non-positive ones.  `none`
means the loop is still running after `fuel` iterations; the loop
terminates exactly when some fuel suffices. -/
def scanLinesFuelWrap (minY maxY maxX w : Int) (fuel : Nat) (x : Int) (numLine : Nat) :
    Option Paths :=
  if x ≤ maxX then
    match fuel with
    | 0 => none
    | fuel + 1 =>
      (scanLinesFuelWrap minY maxY maxX w fuel (wrap64 (x + w)) (numLine + 1)).map
        (scanSeg minY maxY x numLine :: ·)
  else some []

theorem scanLinesFuelWrap_eq_fuel (minY maxY maxX w : Int) (hw : 0 < w)
    (hbound : maxX + w < 2 ^ 63) :
    ∀ (fuel : Nat) (x : Int) (n : Nat), -(2 ^ 63) ≤ x →
      scanLinesFuelWrap minY maxY maxX w fuel x n =
        scanLinesFuel minY maxY maxX w fuel x n := by
  intro fuel
  induction fuel with
  | zero =>
    intro x n hx
    rw [scanLinesFuelWrap, scanLinesFuel]
  | succ fuel ih =>
    intro x n hx
    by_cases hxm : x ≤ maxX
    · rw [scanLinesFuelWrap, scanLinesFuel, if_pos hxm, if_pos hxm]
      have hwr : wrap64 (x + w) = x + w := wrap64_eq (x + w) (by omega) (by omega)
      rw [hwr, ih (x + w) (n + 1) (by omega)]
    · rw [scanLinesFuelWrap, scanLinesFuel, if_neg hxm, if_neg hxm]

theorem scanLinesFuelWrap_zero_none (minY maxY maxX : Int) :
    ∀ (fuel : Nat) (x : Int) (n : Nat), x ≤ maxX → -(2 ^ 63) ≤ x → x < 2 ^ 63 →
      scanLinesFuelWrap minY maxY maxX 0 fuel x n = none := by
  intro fuel
  induction fuel with
  | zero =>
    intro x n hx h1 h2
    rw [scanLinesFuelWrap, if_pos hx]
  | succ fuel ih =>
    intro x n hx h1 h2
    rw [scanLinesFuelWrap, if_pos hx]
    have hwr : wrap64 (x + 0) = x := by
      rw [Int.add_zero]
      exact wrap64_eq x h1 h2
    rw [hwr, ih x (n + 1) hx h1 h2]
    rfl

/-- The region used by the C10 counterexample: a single in-range box with
`min.x = 0 ≤ max.x = 10000`. -/
def wrapRegion : Paths := [[⟨0, 0⟩, ⟨10000, 10000⟩]]

/-- Claim C10, counterexample.  The claim says the scan-line loop never
terminates for a *negative* `lineWidth` on a non-empty region with
`min.x ≤ max.x`.  With Go's wrapping int64 addition it does terminate:
at `lineWidth = -2^62` on the box `[0, 10000]`, `x` steps through
`0, -2^62, -2^63`, then `x += lineWidth` wraps past `Int64` min to
`2^62 > 10000` and the loop exits, after three iterations (fuel 3
suffices). -/
theorem claim10_counterexample :
    (sizeOfPaths wrapRegion).1.x ≤ (sizeOfPaths wrapRegion).2.x ∧
    (-(2 ^ 62) : Int) < 0 ∧
    scanLinesFuelWrap (sizeOfPaths wrapRegion).1.y (sizeOfPaths wrapRegion).2.y
        (sizeOfPaths wrapRegion).2.x (-(2 ^ 62)) 3 (sizeOfPaths wrapRegion).1.x 0 =
      some [scanSeg 0 10000 0 0, scanSeg 0 10000 (-(2 ^ 62)) 1,
        scanSeg 0 10000 (-(2 ^ 63)) 2] := by
  refine ⟨by decide, by decide, by decide⟩

/-- Claim C10, amended.  The scan-line loop of `Fill`, with Go's wrapping
signed 64-bit `x += lineWidth`, terminates for every `lineWidth > 0` on
in-range inputs (`max.x + lineWidth` still representable, as the spec's
bounded build volume guarantees), returning the scan lines; for
`lineWidth = 0` on a region whose in-range bounding box satisfies
`min.x ≤ max.x` no amount of fuel completes it (the loop never
terminates).  For negative `lineWidth` non-termination is *not*
guaranteed: the wraparound can carry `x` past `Int64` min to a value
above `max.x` and exit the loop (see the counterexample).  `Fill` itself
passes `lineWidth` to the loop with no guard. -/
theorem claim10 (paths : Paths) (w : Int)
    (hle : (sizeOfPaths paths).1.x ≤ (sizeOfPaths paths).2.x)
    (hlo : -(2 ^ 63) ≤ (sizeOfPaths paths).1.x)
    (hhi : (sizeOfPaths paths).2.x < 2 ^ 63) :
    (0 < w → (sizeOfPaths paths).2.x + w < 2 ^ 63 →
      ∃ fuel, scanLinesFuelWrap (sizeOfPaths paths).1.y (sizeOfPaths paths).2.y
          (sizeOfPaths paths).2.x w fuel (sizeOfPaths paths).1.x 0 =
        some (scanLines (sizeOfPaths paths).1 (sizeOfPaths paths).2 w)) ∧
    (w = 0 → ∀ fuel, scanLinesFuelWrap (sizeOfPaths paths).1.y (sizeOfPaths paths).2.y
        (sizeOfPaths paths).2.x w fuel (sizeOfPaths paths).1.x 0 = none) := by
  constructor
  · intro hw hbound
    refine ⟨((sizeOfPaths paths).2.x + 1 - (sizeOfPaths paths).1.x).toNat, ?_⟩
    rw [scanLinesFuelWrap_eq_fuel _ _ _ w hw hbound _ _ 0 hlo]
    rw [scanLinesFuel_some _ _ _ w hw _ _ 0 (by omega)]
    rw [scanLines_eq_go _ _ w hw]
  · intro hw fuel
    subst hw
    exact scanLinesFuelWrap_zero_none _ _ _ fuel _ 0 hle hlo (by omega)

/-- The concrete region used by several witnesses: an outer square with a
square hole (the shape of scenario S2, at a tenth of its scale). -/
def fillRegion : Paths :=
  [[⟨0, 0⟩, ⟨1000, 0⟩, ⟨1000, 1000⟩, ⟨0, 1000⟩],
   [⟨200, 200⟩, ⟨800, 200⟩, ⟨800, 800⟩, ⟨200, 800⟩]]

/-- Witness for C10: at `w = 400` the wrapping loop finishes on some fuel
and returns the scan lines; at `w = 0` no fuel finishes it. -/
theorem claim10_witness :
    (∃ fuel, scanLinesFuelWrap (sizeOfPaths fillRegion).1.y (sizeOfPaths fillRegion).2.y
        (sizeOfPaths fillRegion).2.x 400 fuel (sizeOfPaths fillRegion).1.x 0 =
      some (scanLines (sizeOfPaths fillRegion).1 (sizeOfPaths fillRegion).2 400)) ∧
    (∀ fuel, scanLinesFuelWrap (sizeOfPaths fillRegion).1.y (sizeOfPaths fillRegion).2.y
        (sizeOfPaths fillRegion).2.x 0 fuel (sizeOfPaths fillRegion).1.x 0 = none) :=
  ⟨(claim10 fillRegion 400 (by decide) (by decide) (by decide)).1 (by decide) (by decide),
   (claim10 fillRegion 0 (by decide) (by decide) (by decide)).2 (by decide)⟩

/-! ## The clip stage of Fill (claims C1 and C9)

The Boolean engine doing the intersection
(`Execute2(CtIntersection, PftEvenOdd, PftEvenOdd)`) and the offset engine
doing the overlap inset are external to the repository.  The clip loop of
`getLinearFill` is embedded with both engines as explicit parameters; the
concrete engines below are modelled from the spec and exact for the
rectilinear inputs the scenarios use. -/

/-- The crossing ordinates sorted increasingly along the vertical line. -/
def crossingsSorted (region : Paths) (x : Int) : List Int :=
  (crossings region x).insertionSort (· ≤ ·)

/-- Consecutive disjoint pairs of a list: the sorted crossing ordinates
paired into the even-odd interior intervals of the vertical line. -/
def pairUp : List Int → List (Int × Int)
  | a :: b :: rest => (a, b) :: pairUp rest
  | _ => []

/-- Modelled from the spec: even-odd Boolean intersection of one open
vertical segment at `x` with the clip region.  The interior of the
vertical line is the union of the intervals between consecutive sorted
crossings; every nonempty intersection with the segment's span yields one
output segment (emitted bottom-to-top). -/
def clipVertical (region : Paths) (x yA yB : Int) : Paths :=
  (pairUp (crossingsSorted region x)).filterMap (fun ab =>
    if max (min yA yB) ab.1 < min (max yA yB) ab.2 then
      some [⟨x, max (min yA yB) ab.1⟩, ⟨x, min (max yA yB) ab.2⟩]
    else none)

/-- Modelled from the spec: the engine call
`Execute2(CtIntersection, PftEvenOdd, PftEvenOdd)` with the scan lines as
open subjects and the (inset) region as closed clip, for vertical 2-point
subjects over rectilinear clip paths; it never signals failure. -/
def clipLinesEvenOdd (clipRegion : Paths) (lines : Paths) : Option Paths :=
  some (lines.flatMap (fun line =>
    match line with
    | [a, b] => if a.x = b.x then clipVertical clipRegion a.x a.y b.y else []
    | _ => []))

/-- The overlap distance
`float32(lineWidth) * (100.0 - float32(overlapPercentage)) / 100.0`,
modelled exactly in ℚ (the float32 computation is exact at the parameter
values the claims exercise; in particular it is exactly 0 at
`overlapPercentage = 100`). -/
def overlapAmount (lineWidth overlapPercentage : Int) : ℚ :=
  (lineWidth : ℚ) * ((100 : ℚ) - (overlapPercentage : ℚ)) / 100

/-- The clip loop of `getLinearFill` over the region's paths
(`for _, path := range polys`): each path alone — inset by the overlap
unless `overlapPercentage == 0` — is the clip for the full scan-line set,
and the per-path results are concatenated.  A clip failure aborts the
whole fill (`return nil`). -/
def fillClipLoop (offsetE : Paths → ℚ → Paths) (clipE : Paths → Paths → Option Paths)
    (lineWidth overlapPercentage : Int) (lines : Paths) (polys : Paths) : Option Paths :=
  match polys with
  | [] => some []
  | path :: rest =>
    match clipE (if overlapPercentage ≠ 0
        then offsetE [path] (-(overlapAmount lineWidth overlapPercentage))
        else [path]) lines with
    | none => none
    | some segs =>
      (fillClipLoop offsetE clipE lineWidth overlapPercentage lines rest).map (segs ++ ·)

/-- Embeds `getLinearFill`: generate the scan lines over the bounding box, then
clip them per region path; on engine failure return `nil`. -/
def getLinearFill (offsetE : Paths → ℚ → Paths) (clipE : Paths → Paths → Option Paths)
    (polys : Paths) (mn mx : MicroPoint) (lineWidth overlapPercentage : Int) : Paths :=
  match fillClipLoop offsetE clipE lineWidth overlapPercentage
      (scanLines mn mx lineWidth) polys with
  | none => []
  | some r => r

/-- Embeds `clipperClipper.Fill`: compute the bounding box and run
`getLinearFill`. -/
def Fill (offsetE : Paths → ℚ → Paths) (clipE : Paths → Paths → Option Paths)
    (paths : Paths) (lineWidth overlapPercentage : Int) : Paths :=
  getLinearFill offsetE clipE paths (sizeOfPaths paths).1 (sizeOfPaths paths).2
    lineWidth overlapPercentage

/-- Modelled from the spec: the offset engine of the overlap inset
("the region is first offset inward by `-overlap` with square joins") on
one axis-aligned rectangle path: grow the box by `d` (shrink for negative
`d`), dropping it when it degenerates. -/
def rectOffsetPath (p : Path) (d : ℚ) : Option Path :=
  match p with
  | [] => none
  | _ :: _ =>
    let mn := (sizeOfPaths [p]).1
    let mx := (sizeOfPaths [p]).2
    let a : Int := Int.floor ((mn.x : ℚ) - d)
    let b : Int := Int.floor ((mn.y : ℚ) - d)
    let c : Int := Int.ceil ((mx.x : ℚ) + d)
    let e : Int := Int.ceil ((mx.y : ℚ) + d)
    if a < c ∧ b < e then some [⟨a, b⟩, ⟨c, b⟩, ⟨c, e⟩, ⟨a, e⟩] else none

/-- Modelled from the spec: the polygon offset engine; at distance zero
offsetting is the identity ("overlap distance is zero" leaves the region
un-shrunk), nonzero distances offset each axis-aligned rectangle path. -/
def specOffsetEngine (ps : Paths) (d : ℚ) : Paths :=
  if d = 0 then ps else ps.filterMap (fun p => rectOffsetPath p d)

/-- The exact vertical midpoint of a segment spanning `[a, b]`. -/
def midY (a b : Int) : ℚ := ((a : ℚ) + (b : ℚ)) / 2

/-- Claim C9. For every region and every `lineWidth w > 0`,
`Fill(paths, w, 100)` equals `Fill(paths, w, 0)` — the overlap distance
`w·(100−100)/100` is zero, the inward offset step at distance 0 changes
nothing (the spec's offset contract: offsetting by zero is the identity,
assumed of the engine as the hypothesis `hid`), and `overlapPct = 0` uses
the region as-is. -/
theorem claim9 (offsetE : Paths → ℚ → Paths) (hid : ∀ ps, offsetE ps 0 = ps)
    (paths : Paths) (w : Int) (hw : 0 < w) :
    Fill offsetE clipLinesEvenOdd paths w 100 = Fill offsetE clipLinesEvenOdd paths w 0 := by
  unfold Fill getLinearFill
  have key : ∀ (polys lines : Paths),
      fillClipLoop offsetE clipLinesEvenOdd w 100 lines polys =
        fillClipLoop offsetE clipLinesEvenOdd w 0 lines polys := by
    intro polys lines
    induction polys with
    | nil => rfl
    | cons path rest ih =>
      rw [fillClipLoop]
      conv_rhs => rw [fillClipLoop]
      rw [if_pos (by decide : (100 : Int) ≠ 0), if_neg (by decide : ¬ (0 : Int) ≠ 0)]
      have h0 : -(overlapAmount w 100) = 0 := by
        unfold overlapAmount
        norm_num
      rw [h0, hid [path], ih]
  rw [key]

/-- Witness for C9 at the concrete square-with-hole region and the
spec-modelled offset engine. -/
theorem claim9_witness :
    Fill specOffsetEngine clipLinesEvenOdd fillRegion 500 100 =
      Fill specOffsetEngine clipLinesEvenOdd fillRegion 500 0 :=
  claim9 specOffsetEngine (fun ps => by simp [specOffsetEngine]) fillRegion 500 (by decide)

theorem pairUp_mem : ∀ (cs : List Int) (ab : Int × Int), ab ∈ pairUp cs →
    ab.1 ∈ cs ∧ ab.2 ∈ cs
  | [], ab, h => by simp [pairUp] at h
  | [c], ab, h => by simp [pairUp] at h
  | c1 :: c2 :: rest, ab, h => by
    rw [pairUp] at h
    rcases List.mem_cons.mp h with he | he
    · subst he
      exact ⟨by simp, by simp⟩
    · have ih := pairUp_mem rest ab he
      exact ⟨List.mem_cons_of_mem _ (List.mem_cons_of_mem _ ih.1),
        List.mem_cons_of_mem _ (List.mem_cons_of_mem _ ih.2)⟩

theorem countP_pairUp_odd : ∀ (cs : List Int), List.Sorted (· ≤ ·) cs →
    ∀ (ab : Int × Int), ab ∈ pairUp cs → ∀ (m : ℚ),
      (ab.1 : ℚ) < m → m < (ab.2 : ℚ) →
      cs.countP (fun (c : Int) => decide ((c : ℚ) < m)) % 2 = 1
  | [], _, ab, h, _, _, _ => by simp [pairUp] at h
  | [c], _, ab, h, _, _, _ => by simp [pairUp] at h
  | c1 :: c2 :: rest, hs, ab, h, m, h1, h2 => by
    have hs1 := List.sorted_cons.mp hs
    have hs2 := List.sorted_cons.mp hs1.2
    rw [pairUp] at h
    rcases List.mem_cons.mp h with he | he
    · subst he
      have hpc1 : (decide ((c1 : ℚ) < m)) = true := by
        rw [decide_eq_true_eq]
        exact h1
      have hpc2 : (decide ((c2 : ℚ) < m)) = false := by
        rw [decide_eq_false_iff_not]
        intro hcon
        exact absurd (lt_trans h2 hcon) (lt_irrefl _)
      have hrest : rest.countP (fun (c : Int) => decide ((c : ℚ) < m)) = 0 := by
        apply List.countP_eq_zero.mpr
        intro c hc
        simp only [decide_eq_true_eq]
        intro hcon
        have hle : c2 ≤ c := hs2.1 c hc
        have hleQ : (c2 : ℚ) ≤ (c : ℚ) := by exact_mod_cast hle
        have : m < m := lt_trans (lt_of_lt_of_le h2 hleQ) hcon
        exact absurd this (lt_irrefl m)
      simp [List.countP_cons, hpc1, hpc2, hrest]
    · have hmem := pairUp_mem rest ab he
      have hrec := countP_pairUp_odd rest hs2.2 ab he m h1 h2
      have hc1 : c1 ≤ ab.1 := hs1.1 ab.1 (List.mem_cons_of_mem _ hmem.1)
      have hc2 : c2 ≤ ab.1 := hs2.1 ab.1 hmem.1
      have hpc1 : (decide ((c1 : ℚ) < m)) = true := by
        rw [decide_eq_true_eq]
        have : (c1 : ℚ) ≤ (ab.1 : ℚ) := by exact_mod_cast hc1
        exact lt_of_le_of_lt this h1
      have hpc2 : (decide ((c2 : ℚ) < m)) = true := by
        rw [decide_eq_true_eq]
        have : (c2 : ℚ) ≤ (ab.1 : ℚ) := by exact_mod_cast hc2
        exact lt_of_le_of_lt this h1
      simp [List.countP_cons, hpc1, hpc2]
      omega

theorem clipVertical_mem (region : Paths) (x yA yB : Int) (seg : Path)
    (h : seg ∈ clipVertical region x yA yB) :
    ∃ l h2 : Int, seg = [⟨x, l⟩, ⟨x, h2⟩] ∧ l < h2 ∧
      evenOddInsideQ region x (midY l h2) = true := by
  unfold clipVertical at h
  rcases List.mem_filterMap.mp h with ⟨ab, habl, hab⟩
  by_cases hlt : max (min yA yB) ab.1 < min (max yA yB) ab.2
  · rw [if_pos hlt] at hab
    cases hab
    refine ⟨max (min yA yB) ab.1, min (max yA yB) ab.2, rfl, hlt, ?_⟩
    have hltQ : ((max (min yA yB) ab.1 : Int) : ℚ) < ((min (max yA yB) ab.2 : Int) : ℚ) := by
      exact_mod_cast hlt
    have hm1 : ((max (min yA yB) ab.1 : Int) : ℚ) <
        midY (max (min yA yB) ab.1) (min (max yA yB) ab.2) := by
      unfold midY
      linarith
    have hm2 : midY (max (min yA yB) ab.1) (min (max yA yB) ab.2) <
        ((min (max yA yB) ab.2 : Int) : ℚ) := by
      unfold midY
      linarith
    have ha : (ab.1 : ℚ) < midY (max (min yA yB) ab.1) (min (max yA yB) ab.2) := by
      have h3 : (ab.1 : ℚ) ≤ ((max (min yA yB) ab.1 : Int) : ℚ) := by
        exact_mod_cast le_max_right (min yA yB) ab.1
      exact lt_of_le_of_lt h3 hm1
    have hb : midY (max (min yA yB) ab.1) (min (max yA yB) ab.2) < (ab.2 : ℚ) := by
      have h3 : ((min (max yA yB) ab.2 : Int) : ℚ) ≤ (ab.2 : ℚ) := by
        exact_mod_cast min_le_right (max yA yB) ab.2
      exact lt_of_lt_of_le hm2 h3
    have hsorted : List.Sorted (· ≤ ·) (crossingsSorted region x) :=
      List.sorted_insertionSort _ _
    have hodd := countP_pairUp_odd (crossingsSorted region x) hsorted ab habl _ ha hb
    have hperm : (crossingsSorted region x).Perm (crossings region x) :=
      List.perm_insertionSort _ _
    unfold evenOddInsideQ
    rw [← hperm.countP_eq, hodd]
    rfl
  · rw [if_neg hlt] at hab
    exact absurd hab (by simp)

theorem clipLinesEvenOdd_mem (clipRegion lines : Paths) (segs : Paths) (seg : Path)
    (h : clipLinesEvenOdd clipRegion lines = some segs) (hseg : seg ∈ segs) :
    ∃ x yA yB : Int, seg ∈ clipVertical clipRegion x yA yB := by
  cases h
  rcases List.mem_flatMap.mp hseg with ⟨line, hline, hmem⟩
  cases line with
  | nil => simp at hmem
  | cons a t =>
    cases t with
    | nil => simp at hmem
    | cons b t2 =>
      cases t2 with
      | nil =>
        have hmem2 : seg ∈ (if a.x = b.x then clipVertical clipRegion a.x a.y b.y
            else []) := hmem
        by_cases hx : a.x = b.x
        · rw [if_pos hx] at hmem2
          exact ⟨a.x, a.y, b.y, hmem2⟩
        · rw [if_neg hx] at hmem2
          exact absurd hmem2 (by simp)
      | cons c t3 => simp at hmem

theorem fillClipLoop_mem (offsetE : Paths → ℚ → Paths)
    (clipE : Paths → Paths → Option Paths) (w : Int) (lines : Paths) :
    ∀ (polys : Paths) (r : Paths) (seg : Path),
      fillClipLoop offsetE clipE w 0 lines polys = some r → seg ∈ r →
      ∃ p, p ∈ polys ∧ ∃ segs, clipE [p] lines = some segs ∧ seg ∈ segs := by
  intro polys
  induction polys with
  | nil =>
    intro r seg hr hseg
    cases hr
    simp at hseg
  | cons path rest ih =>
    intro r seg hr hseg
    rw [fillClipLoop, if_neg (by decide : ¬ (0 : Int) ≠ 0)] at hr
    cases hclip : clipE [path] lines with
    | none =>
      rw [hclip] at hr
      exact absurd hr (by simp)
    | some segs =>
      rw [hclip] at hr
      cases hrec : fillClipLoop offsetE clipE w 0 lines rest with
      | none =>
        rw [hrec] at hr
        exact absurd hr (by simp)
      | some r2 =>
        rw [hrec] at hr
        cases hr
        rcases List.mem_append.mp hseg with hcase | hcase
        · exact ⟨path, by simp, segs, hclip, hcase⟩
        · rcases ih r2 seg hrec hcase with ⟨p, hp, segs2, hc1, hc2⟩
          exact ⟨p, List.mem_cons_of_mem _ hp, segs2, hc1, hc2⟩

/-- Claim C1, counterexample. The claim says every segment returned by
`Fill(paths, w, 0)` lies inside the even-odd interior of the input region
as a whole, so that no segment lies inside a hole.  The source instead
clips the scan lines against each path of the region separately and
concatenates the results: for the square-with-hole region, the segment
`(500, 200) – (500, 800)` is returned although its midpoint `(500, 500)`
lies inside the hole, outside the region's even-odd interior. -/
theorem claim1_counterexample :
    ([⟨500, 200⟩, ⟨500, 800⟩] : Path) ∈
      Fill specOffsetEngine clipLinesEvenOdd fillRegion 500 0 ∧
    midY 200 800 = (500 : ℚ) ∧
    evenOddInsideQ fillRegion 500 ((500 : Int) : ℚ) = false := by
  refine ⟨by decide, ?_, by decide⟩
  unfold midY
  norm_num

/-- Claim C1, amended. For every region and every `lineWidth w > 0`, every
segment returned by `Fill(paths, w, 0)` is a vertical segment lying inside
the even-odd interior of at least one *single path* of the region (its
midpoint is even-odd inside that path): the scan segments are clipped
against each region path independently and the results concatenated, so
for a region consisting of an outline path plus a hole path, segments
inside the hole are also returned. -/
theorem claim1_amended (region : Paths) (w : Int) (hw : 0 < w) (seg : Path)
    (hseg : seg ∈ Fill specOffsetEngine clipLinesEvenOdd region w 0) :
    ∃ p, p ∈ region ∧ ∃ x l h2 : Int,
      seg = [⟨x, l⟩, ⟨x, h2⟩] ∧ l < h2 ∧
      evenOddInsideQ [p] x (midY l h2) = true := by
  unfold Fill getLinearFill at hseg
  cases hloop : fillClipLoop specOffsetEngine clipLinesEvenOdd w 0
      (scanLines (sizeOfPaths region).1 (sizeOfPaths region).2 w) region with
  | none =>
    rw [hloop] at hseg
    exact absurd hseg (by simp)
  | some r =>
    rw [hloop] at hseg
    rcases fillClipLoop_mem specOffsetEngine clipLinesEvenOdd w
        (scanLines (sizeOfPaths region).1 (sizeOfPaths region).2 w) region r seg hloop
        hseg with ⟨p, hp, segs, hclip, hmem⟩
    rcases clipLinesEvenOdd_mem [p] _ segs seg hclip hmem with ⟨x, yA, yB, hmem2⟩
    rcases clipVertical_mem [p] x yA yB seg hmem2 with ⟨l, h2, hseq, hlt, hinside⟩
    exact ⟨p, hp, x, l, h2, hseq, hlt, hinside⟩

/-- Witness for the amended C1 at the square-with-hole region: the
hole-interior segment of the counterexample is inside the even-odd
interior of one single path of the region (the hole path). -/
theorem claim1_amended_witness :
    ∃ p, p ∈ fillRegion ∧ ∃ x l h2 : Int,
      ([⟨500, 200⟩, ⟨500, 800⟩] : Path) = [⟨x, l⟩, ⟨x, h2⟩] ∧ l < h2 ∧
      evenOddInsideQ [p] x (midY l h2) = true :=
  claim1_amended fillRegion 500 (by decide) [⟨500, 200⟩, ⟨500, 800⟩] (by decide)

end GoSlice
